import Mathlib

/-!
# Watch registry, poll cycle and command handler of the coin bot

A shallow embedding of `src/type.go` and `src/slack_coins.go`.

Modelling conventions.

* `float64`/`float32` values are exact rationals (`ℚ`).  Every finite float is a
  rational, and the price feed is decoded from JSON numbers, which are finite.
  The only float arithmetic in the embedded code is `x - x`, `math.Abs` and a
  comparison with `float64(threshold)`; on finite floats `x - x` is exactly zero
  and the conversion of an `int` keeps its sign, so the comparison has the same
  outcome over `ℚ`.
* Go `int` values are `Int`; `strconv.Atoi` checks the 64-bit range explicitly.
* `map[string]*Watch` is a function `String → Option Watch`; a missing key reads
  as the nil pointer (`none`).  Every stored pointer comes from a fresh
  `&Watch{...}` in `WatchList.Watch`, so no two keys alias.
* A run-time panic is an explicit result (`Exec.panic`), carrying the registry
  as it was when the panic happened.
* The mutex is omitted: every operation is modelled as one atomic step.
* The order in which Go ranges over a map is unspecified; it is an explicit
  argument (`order`) wherever the code ranges over a map.
* The price feed (`mkt`, of interface type `TickersPipeline`) and
  `strings.ToLower` are fields of `Env`.
* The library function `sort.Sort` is embedded as the insertion sort that the
  library runs on short inputs; it works on the data only through the methods
  `Len`, `Less` and `Swap` of `Sortable`, which are embedded from the source.
-/

namespace CoinBot

/-! ## Data model (`src/type.go`) -/

/-- Run-time panics that the embedded code can raise. -/
inductive Fault where
  | nilDereference
  | indexOutOfRange
  | sliceBounds
  deriving DecidableEq, Repr

/-- The Go struct `Message` (the field `Type` is spelled `Type_`). -/
structure Message where
  Id : Nat
  Type_ : String
  Channel : String
  Text : String
  deriving DecidableEq

/-- The Go struct `Watch`. -/
structure Watch where
  Channel : String
  Name : String
  LastPrice : ℚ
  Threshold : Int
  deriving DecidableEq

/-- The Go struct `TickerData`. -/
structure TickerData where
  Id : String
  Name : String
  Symbol : String
  Rank : Int
  PriceUSD : ℚ
  PriceBTC : ℚ
  Volume24H : ℚ
  MarketCapUSD : ℚ
  AvailableSupply : ℚ
  TotalSupply : ℚ
  PercentChange1H : ℚ
  PercentChange24H : ℚ
  PercentChange7D : ℚ
  LastUpdated : Int
  deriving DecidableEq

/-- The Go struct `WatchList` (without its mutex). -/
structure WatchList where
  list : String → Option Watch

/-- A Go slice: the `len` visible elements and the rest of the backing array up
to `cap`. -/
structure Slice (α : Type) where
  elems : List α
  spare : List α

/-- Capacity of a slice. -/
def Slice.cap {α : Type} (s : Slice α) : Nat :=
  s.elems.length + s.spare.length

/-- The slice expression `s[:k]`: it panics unless `0 ≤ k ≤ cap(s)`. -/
def Slice.sliceTo {α : Type} (s : Slice α) (k : Int) : Except Fault (List α) :=
  if k < 0 ∨ (s.cap : Int) < k then .error .sliceBounds
  else .ok ((s.elems ++ s.spare).take k.toNat)

/-- Result of running code against the registry: a normal return, or a panic. -/
inductive Exec (α : Type) where
  | done (wl : WatchList) (ret : α)
  | panic (wl : WatchList) (f : Fault)

/-- The value returned, when the code returned. -/
def Exec.ret? {α : Type} : Exec α → Option α
  | .done _ r => some r
  | .panic _ _ => none

/-- The registry after the code ran (or at the panic). -/
def Exec.registry {α : Type} : Exec α → WatchList
  | .done wl _ => wl
  | .panic wl _ => wl

/-- The panic raised, if any. -/
def Exec.fault? {α : Type} : Exec α → Option Fault
  | .done _ _ => none
  | .panic _ f => some f

/-- The environment of the bot: the library functions and the price feed. -/
structure Env where
  /-- Stands for `strings.ToLower`. -/
  ToLower : String → String
  /-- Stands for `mkt.FetchCoins(ctx, symbol)`. -/
  FetchCoins : String → Except String (Slice TickerData)

/-! ## Formatting (`fmt.Sprintf`) -/

/-- The verb `%Ns` for a string: padded on the left with spaces to `w` runes. -/
def padLeft (w : Nat) (s : String) : String :=
  String.mk (List.replicate (w - s.length) ' ') ++ s

/-- Nearest integer to `n / d`, ties to even. -/
def roundHalfEven (n d : Nat) : Nat :=
  let q := n / d
  let r := n % d
  if 2 * r < d then q else if d < 2 * r then q + 1 else if q % 2 = 0 then q else q + 1

/-- Two decimal digits. -/
def digits2 (n : Nat) : String :=
  (if n < 10 then "0" else "") ++ toString n

/-- The verbs `%W.2f` (`plus = false`) and `%+W.2f` (`plus = true`) for `W ≤ 4`:
the value rounded to two decimals, which is never shorter than four runes. -/
def fmtF2 (plus : Bool) (x : ℚ) : String :=
  let n := roundHalfEven (x.num.natAbs * 100) x.den
  (if x.num < 0 then "-" else if plus then "+" else "") ++
    toString (n / 100) ++ "." ++ digits2 (n % 100)

/-- The verb `%1v` for a `[]string`: the elements, each under `%1v`, separated
by spaces and enclosed in brackets. -/
def fmtV1 (sym : List String) : String :=
  "[" ++ " ".intercalate (sym.map (padLeft 1)) ++ "]"

/-! ## The watch registry (`src/type.go`) -/

/-- The Go function `NewWatchList`. -/
def NewWatchList : WatchList :=
  ⟨fun _ => none⟩

/-- The Go method `WatchList.update`. -/
def WatchList.update (wl : WatchList) (td : TickerData) : Exec (Option Message) :=
  match wl.list td.Symbol with
  | none => .panic wl .nilDereference
  | some watch =>
    let delta := td.PriceUSD - td.PriceUSD
    let wl1 : WatchList :=
      ⟨Function.update wl.list td.Symbol (some { watch with LastPrice := td.PriceUSD })⟩
    if |delta| > (watch.Threshold : ℚ) then
      .done wl1 (some {
        Id := 0
        Channel := watch.Channel
        Type_ := "message"
        Text := "[ " ++ padLeft 1 td.Symbol ++ " ] $" ++ fmtF2 true delta ++ " to $" ++
          fmtF2 false td.PriceUSD })
    else
      .done wl1 none

/-- The Go method `WatchList.Update`; `td = none` is the nil pointer. -/
def WatchList.Update (wl : WatchList) (td : Option TickerData) : Exec (Option Message) :=
  match td with
  | none => .done wl none
  | some td => wl.update td

/-- The Go method `WatchList.Foreach`: `action` is run for every key of the map,
in the order `order`, threading the state the closure captures. -/
def WatchList.Foreach {σ : Type} (wl : WatchList) (order : List String)
    (action : σ → String → Watch → σ) (init : σ) : σ :=
  order.foldl
    (fun st symbol =>
      match wl.list symbol with
      | some watch => action st symbol watch
      | none => st)
    init

/-- The list `order` is a possible order of `range wl.list`: every key once. -/
def WatchList.IsRange (wl : WatchList) (order : List String) : Prop :=
  order.Nodup ∧ ∀ s, s ∈ order ↔ wl.list s ≠ none

/-- The Go method `WatchList.Watch`; `td = none` is the nil pointer. -/
def WatchList.Watch (wl : WatchList) (channel : String) (threshold : Int)
    (td : Option TickerData) : Exec (Option Message) :=
  match td with
  | none => .done wl none
  | some td =>
    let wl1 : WatchList :=
      ⟨Function.update wl.list td.Symbol
        (some { Channel := channel, Name := td.Name, LastPrice := 0, Threshold := threshold })⟩
    wl1.update td

/-- The Go method `WatchList.UnWatch`. -/
def WatchList.UnWatch (wl : WatchList) (symbol : String) : WatchList :=
  ⟨Function.update wl.list symbol none⟩

/-! ## The poll cycle (`src/slack_coins.go`, the body run on a ticker tick) -/

/-- How one poll cycle ended: the loop over the symbols ran to its end, the
goroutine left through `return`, or a panic reached `log.Fatal`. -/
inductive CycleEnd where
  | completed
  | returned
  | fatal (f : Fault)
  deriving DecidableEq

/-- State threaded through one poll cycle.  `updates` is a ghost trace: the
calls of `wl.Update` made so far, each with the symbol being checked. -/
structure CycleState where
  wl : WatchList
  posted : List Message
  updates : List (String × TickerData)

/-- The loop `for symbol, watch := range sl` of the poll cycle, over the
symbols in the order `range` yields them (the two `Printf` calls are left
out). -/
def pollSymbols (env : Env) : List String → CycleState → CycleState × CycleEnd
  | [], st => (st, .completed)
  | symbol :: rest, st =>
    match env.FetchCoins symbol with
    | .error _ => (st, .returned)
    | .ok td =>
      match td.elems with
      | [] => pollSymbols env rest st
      | td0 :: _ =>
        match st.wl.Update (some td0) with
        | .panic wl f =>
          ({ wl := wl, posted := st.posted, updates := st.updates ++ [(symbol, td0)] }, .fatal f)
        | .done wl message =>
          pollSymbols env rest
            { wl := wl
              posted := st.posted ++ message.toList
              updates := st.updates ++ [(symbol, td0)] }

/-- The body of `case <-ticker.C`: copy the registry into `sl` through
`Foreach` (ranging over `wl.list` in the order `order1`), then range over `sl`
in the order `order2`. -/
def pollCycle (env : Env) (order1 order2 : List String) (wl : WatchList) :
    CycleState × CycleEnd :=
  let sl : String → Option Watch :=
    wl.Foreach order1 (fun sl symbol watch => Function.update sl symbol (some watch))
      (fun _ => none)
  pollSymbols env (order2.filter (fun symbol => (sl symbol).isSome))
    { wl := wl, posted := [], updates := [] }

/-! ## Library functions used by the command handler -/

/-- The Go function `unicode.IsSpace`. -/
def isSpace (c : Char) : Bool :=
  let n := c.toNat
  (9 ≤ n && n ≤ 13) || n = 32 || n = 0x85 || n = 0xA0 || n = 0x1680 ||
    (0x2000 ≤ n && n ≤ 0x200a) || n = 0x2028 || n = 0x2029 || n = 0x202f ||
    n = 0x205f || n = 0x3000

/-- Worker of `Fields`: `cur` is the field being read. -/
def fieldsFrom : List Char → List Char → List String
  | [], cur => if cur = [] then [] else [String.mk cur]
  | c :: cs, cur =>
    if isSpace c then
      if cur = [] then fieldsFrom cs [] else String.mk cur :: fieldsFrom cs []
    else fieldsFrom cs (cur ++ [c])

/-- The Go function `strings.Fields`. -/
def Fields (s : String) : List String :=
  fieldsFrom s.data []

/-- The Go function `strings.HasPrefix`. -/
def HasPrefix (s pre : String) : Bool :=
  pre.data.isPrefixOf s.data

/-- The Go function `strconv.Atoi`: an optional sign, then one or more decimal
digits, and the value has to fit a 64-bit `int`; `none` is a non-nil `err`. -/
def Atoi (s : String) : Option Int :=
  let sd : Bool × List Char :=
    match s.data with
    | '+' :: r => (false, r)
    | '-' :: r => (true, r)
    | r => (false, r)
  if sd.2 = [] ∨ ¬ sd.2.all Char.isDigit then none
  else
    let n : Nat := sd.2.foldl (fun acc c => acc * 10 + (c.toNat - 48)) 0
    let v : Int := if sd.1 then -(n : Int) else (n : Int)
    if v < -(2 ^ 63 : Int) ∨ (2 ^ 63 : Int) - 1 < v then none else some v

/-! ## Quote lookup and ranking (`src/slack_coins.go`) -/

/-- The line `getQuote` writes for one coin. -/
def quoteLine (coin : TickerData) : String :=
  padLeft 1 coin.Symbol ++ " $" ++ fmtF2 false coin.PriceUSD ++ ", update 1H: " ++
    fmtF2 false coin.PercentChange1H ++ "%, update 24H: " ++
    fmtF2 false coin.PercentChange24H ++ "%\n"

/-- The Go function `getQuote`.  The map `set` is its membership function. -/
def getQuote (env : Env) (sym : List String) : String :=
  let set : String → Bool :=
    sym.foldl (fun set v => Function.update set (env.ToLower v) true) (fun _ => false)
  match env.FetchCoins "" with
  | .ok coins =>
    if 0 < coins.elems.length then
      let rf : String × Bool :=
        coins.elems.foldl
          (fun rf coin =>
            if set (env.ToLower coin.Symbol) then (rf.1 ++ quoteLine coin, true) else rf)
          ("", false)
      if rf.2 then rf.1 else "'" ++ fmtV1 sym ++ "' not found"
    else "n/a"
  | .error _ => "n/a"

/-- The local function `min` of `rankCoins`. -/
def minInt (l r : Int) : Int :=
  if l < r then l else r

/-- The Go type `Sortable`: a slice of `TickerData`. -/
abbrev Sortable := List TickerData

/-- The method `Sortable.Len`. -/
def Sortable.Len (s : Sortable) : Nat :=
  s.length

/-- The method `Sortable.Less`; an index outside the slice panics. -/
def Sortable.Less (s : Sortable) (i j : Nat) : Except Fault Bool :=
  match s[i]?, s[j]? with
  | some a, some b => .ok (decide (a.MarketCapUSD > b.MarketCapUSD))
  | _, _ => .error .indexOutOfRange

/-- The method `Sortable.Swap`; an index outside the slice panics. -/
def Sortable.Swap (s : Sortable) (i j : Nat) : Except Fault Sortable :=
  match s[i]?, s[j]? with
  | some tmp, some sj => .ok ((s.set i sj).set j tmp)
  | _, _ => .error .indexOutOfRange

/-- The inner loop of the library's insertion sort, for the lower bound 0:
`for j := i; j > 0 && data.Less(j, j-1); j-- { data.Swap(j, j-1) }`. -/
def insertionInner : Sortable → Nat → Except Fault Sortable
  | s, 0 => .ok s
  | s, j + 1 =>
    match Sortable.Less s (j + 1) j with
    | .error f => .error f
    | .ok false => .ok s
    | .ok true =>
      match Sortable.Swap s (j + 1) j with
      | .error f => .error f
      | .ok s1 => insertionInner s1 j

/-- The outer loop of the library's insertion sort, `for i := 1; i < n; i++`,
at index `i` with `todo` iterations left. -/
def insertionOuter : Sortable → Nat → Nat → Except Fault Sortable
  | s, _, 0 => .ok s
  | s, i, todo + 1 =>
    match insertionInner s i with
    | .error f => .error f
    | .ok s1 => insertionOuter s1 (i + 1) todo

/-- The library function `sort.Sort`, which is not part of the repository, on
a `Sortable`: the insertion sort that the library runs on short inputs.  It
reads the data through `Len` and `Less` and rearranges it through `Swap` only.
The other strategies of the library can differ from it only in the order of
coins of equal `MarketCapUSD`. -/
def sortSort (s : Sortable) : Except Fault Sortable :=
  insertionOuter s 1 (Sortable.Len s - 1)

/-- The line `rankCoins` writes for one coin. -/
def rankLine (v : TickerData) : String :=
  padLeft 1 v.Name ++ " : " ++ padLeft 2 v.Symbol ++ " => price: $" ++
    fmtF2 false v.PriceUSD ++ " : market: $" ++ fmtF2 false v.MarketCapUSD ++ "\n"

/-- The reply `rankCoins` builds from the coins it ranges over. -/
def rankLines (vs : List TickerData) : String :=
  vs.foldl (fun resp v => resp ++ rankLine v) ""

/-- The Go function `rankCoins`. -/
def rankCoins (env : Env) (limit : Int) : Except Fault String :=
  match env.FetchCoins "" with
  | .ok coins =>
    if 0 < coins.elems.length then
      match sortSort coins.elems with
      | .error f => .error f
      | .ok elems =>
        let sorted : Slice TickerData := { coins with elems := elems }
        match sorted.sliceTo (minInt limit 30) with
        | .error f => .error f
        | .ok vs => .ok (rankLines vs)
    else .ok "n/a"
  | .error _ => .ok "n/a"

/-! ## The command handler (`msgF` in `main`) -/

/-- How the handling of one message ended: normally, with a panic that `recv`
recovered, or with a panic in a goroutine that has no `recover`, which ends the
process. -/
inductive Ending where
  | normal
  | recovered (f : Fault)
  | crashed (f : Fault)
  deriving DecidableEq

/-- Effect of handling one message: the registry, the messages handed to
`postMessage`, and how the handling ended. -/
structure Handled where
  wl : WatchList
  posted : List Message
  ending : Ending

/-- The message `helpF` posts. -/
def helpF (m : Message) : Message :=
  { m with
    Text := "Commands: \n" ++
      "*coin <symbol symbol ...>* - get coin stats \n" ++
      "*rank <n>* - get top N records sorted by price\n" ++
      "*watch symbol threshold* - watch coin price change\n" ++
      "*unwatch symbol* - unwatch coin\n" ++
      "*watchlist* - list current watched coins" }

/-- The deferred `recv` after a panic: it starts `helpF`. -/
def recv (m : Message) (wl : WatchList) (f : Fault) : Handled :=
  { wl := wl, posted := [helpF m], ending := .recovered f }

/-- The search loop of the `watch` command, with the pointer `td` as state.
The condition reads `td.Symbol`, not `current.Symbol`. -/
def findTicker (env : Env) (symbol : String) :
    List TickerData → Option TickerData → Except Fault (Option TickerData)
  | [], td => .ok td
  | current :: rest, td =>
    match td with
    | none => .error .nilDereference
    | some t =>
      if env.ToLower t.Symbol = symbol then .ok (some current)
      else findTicker env symbol rest td

/-- The `case "watch"` of `msgF`. -/
def msgWatch (env : Env) (wl : WatchList) (m : Message) (parts : List String) : Handled :=
  match parts with
  | [_, _, p2, p3] =>
    match Atoi p3 with
    | some threshold =>
      if 0 < threshold then
        let symbol := env.ToLower p2
        match env.FetchCoins "" with
        | .ok tdl =>
          match findTicker env symbol tdl.elems none with
          | .error f => recv m wl f
          | .ok (some td) =>
            match wl.Watch m.Channel threshold (some td) with
            | .done wl1 _ => { wl := wl1, posted := [], ending := .normal }
            | .panic wl1 f => recv m wl1 f
          | .ok none =>
            { wl := wl
              posted := [{ m with Text := "Coin '" ++ symbol ++ "' does not exist" }]
              ending := .normal }
        | .error _ =>
          { wl := wl, posted := [{ m with Text := "Cannot fetch coins" }], ending := .normal }
      else
        { wl := wl
          posted := [{ m with Text := "Cannot parse threshold " ++ p3 }]
          ending := .normal }
    | none =>
      { wl := wl
        posted := [{ m with Text := "Cannot parse threshold " ++ p3 }]
        ending := .normal }
  | _ => { wl := wl, posted := [helpF m], ending := .normal }

/-- The closure `msgF` of `main`, for the bot whose id is `id`.  Goroutines run
at once; `order` is the order in which `Foreach` ranges over the registry. -/
def msgF (env : Env) (id : String) (order : List String) (wl : WatchList) (m : Message) :
    Handled :=
  if m.Type_ = "message" ∧ HasPrefix m.Text ("<@" ++ id ++ ">") then
    let parts := Fields m.Text
    match parts with
    | _ :: p1 :: args =>
      if p1 = "watch" then msgWatch env wl m parts
      else if p1 = "unwatch" then
        match args with
        | p2 :: _ => { wl := wl.UnWatch p2, posted := [], ending := .normal }
        | [] => recv m wl .indexOutOfRange
      else if p1 = "watchlist" then
        let sl : List String := wl.Foreach order (fun sl symbol _ => sl ++ [symbol]) []
        { wl := wl
          posted := [{ m with Text := "Tickers: [" ++ " ".intercalate sl ++ "]" }]
          ending := .normal }
      else if p1 = "coin" then
        { wl := wl, posted := [{ m with Text := getQuote env args }], ending := .normal }
      else if p1 = "rank" then
        match args with
        | p2 :: _ =>
          let r : Int := (Atoi p2).getD 10
          match rankCoins env r with
          | .ok text => { wl := wl, posted := [{ m with Text := text }], ending := .normal }
          | .error f => { wl := wl, posted := [], ending := .crashed f }
        | [] => recv m wl .indexOutOfRange
      else { wl := wl, posted := [helpF m], ending := .normal }
    | _ => recv m wl .indexOutOfRange
  else { wl := wl, posted := [], ending := .normal }

/-! ## Concrete data used in the scenarios -/

/-- A ticker record with the given name, symbol, price and market
capitalisation; the other fields are zero. -/
def ticker (name symbol : String) (price cap : ℚ) : TickerData :=
  { Id := name, Name := name, Symbol := symbol, Rank := 0, PriceUSD := price, PriceBTC := 0
    Volume24H := 0, MarketCapUSD := cap, AvailableSupply := 0, TotalSupply := 0
    PercentChange1H := 0, PercentChange24H := 0, PercentChange7D := 0, LastUpdated := 0 }

/-- Lowercasing of the ASCII letters: what `strings.ToLower` does on ASCII text. -/
def lowerASCII (s : String) : String :=
  String.mk (s.data.map Char.toLower)

/-- An environment whose feed answers every request with `coins`. -/
def constEnv (coins : List TickerData) : Env :=
  { ToLower := lowerASCII, FetchCoins := fun _ => .ok ⟨coins, []⟩ }

/-! ## Sequences of registrations and deregistrations -/

/-- The registry entry that `Watch(channel, threshold, td)` leaves. -/
def watchEntry (channel : String) (threshold : Int) (td : TickerData) : Watch :=
  { Channel := channel, Name := td.Name, LastPrice := td.PriceUSD, Threshold := threshold }

/-- A call of `WatchList.Watch` with a non-nil snapshot, or of
`WatchList.UnWatch`. -/
inductive RegOp where
  | watch (channel : String) (threshold : Int) (td : TickerData)
  | unwatch (symbol : String)

/-- The symbol a call is about. -/
def RegOp.symbol : RegOp → String
  | .watch _ _ td => td.Symbol
  | .unwatch symbol => symbol

/-- The entry that a call, taken alone, leaves for its symbol. -/
def RegOp.entry : RegOp → Option Watch
  | .watch channel threshold td => some (watchEntry channel threshold td)
  | .unwatch _ => none

/-- Runs the calls one after the other; a panic stops the run. -/
def runOps : WatchList → List RegOp → Exec Unit
  | wl, [] => .done wl ()
  | wl, .watch channel threshold td :: ops =>
    match wl.Watch channel threshold (some td) with
    | .done wl1 _ => runOps wl1 ops
    | .panic wl1 f => .panic wl1 f
  | wl, .unwatch symbol :: ops => runOps (wl.UnWatch symbol) ops

/-- The registry of the scenario: `BTC` watched at price 50000 with threshold
100, set up through `Watch` on a new registry. -/
def btcRegistry : WatchList :=
  (NewWatchList.Watch "C0" 100 (some (ticker "Bitcoin" "BTC" 50000 0))).registry

/-- A registry with the two symbols `AAA` and `BBB`. -/
def twoRegistry : WatchList :=
  ⟨fun s =>
    if s = "AAA" then some { Channel := "C0", Name := "Alpha", LastPrice := 10, Threshold := 5 }
    else if s = "BBB" then
      some { Channel := "C0", Name := "Beta", LastPrice := 20, Threshold := 5 }
    else none⟩

/-- An environment whose feed fails for `AAA` and has data for every other
symbol. -/
def failingEnv : Env :=
  { ToLower := lowerASCII
    FetchCoins := fun symbol =>
      if symbol = "AAA" then .error "unreachable"
      else .ok ⟨[ticker "Beta" symbol 21 0], []⟩ }

/-- The message `text`, sent in channel `C0`. -/
def chat (text : String) : Message :=
  { Id := 0, Type_ := "message", Channel := "C0", Text := text }

/-- A listing of `n` coins with the market capitalisations `0, 1, ..., n - 1`. -/
def listing (n : Nat) : List TickerData :=
  (List.range n).map (fun i => ticker "Coin" "CN" 1 i)

/-- The quote lines of the coins `cs`, one after the other. -/
def quoteLines (cs : List TickerData) : String :=
  cs.foldl (fun resp coin => resp ++ quoteLine coin) ""

/-- The coin's symbol is, up to case, one of the requested symbols. -/
def requested (env : Env) (sym : List String) (coin : TickerData) : Bool :=
  decide (env.ToLower coin.Symbol ∈ sym.map env.ToLower)

/-- The environment of the quote scenario: the listing holds only `BTC`. -/
def btcEnv : Env :=
  constEnv [ticker "Bitcoin" "BTC" 50000 900]

/-- A snapshot of `AAA` at price 12. -/
def alphaAt12 : TickerData :=
  ticker "Alpha" "AAA" 12 0

/-- The calls `Watch(BTC)`, `UnWatch(BTC)`. -/
def btcOps : List RegOp :=
  [.watch "C0" 100 (ticker "Bitcoin" "BTC" 50000 0), .unwatch "BTC"]

/-- The call `Watch("C1", 7, BTC at 50150)`. -/
def btcLastOp : RegOp :=
  .watch "C1" 7 (ticker "Bitcoin" "BTC" 50150 0)

/-- A listing of two coins: `BBB` has the higher price, `A` the higher market
capitalisation. -/
def twoCoins : List TickerData :=
  [ticker "Beta" "BBB" 50 10, ticker "Alpha" "A" 1 100]

/-! # Theorems -/

/-! ## The registry: lemmas -/

theorem update_registered (wl : WatchList) (td : TickerData) (w : Watch)
    (h : wl.list td.Symbol = some w) :
    wl.update td =
      if (0 : ℚ) > (w.Threshold : ℚ) then
        .done ⟨Function.update wl.list td.Symbol (some { w with LastPrice := td.PriceUSD })⟩
          (some {
            Id := 0
            Channel := w.Channel
            Type_ := "message"
            Text := "[ " ++ padLeft 1 td.Symbol ++ " ] $" ++ fmtF2 true 0 ++ " to $" ++
              fmtF2 false td.PriceUSD })
      else
        .done ⟨Function.update wl.list td.Symbol (some { w with LastPrice := td.PriceUSD })⟩
          none := by
  simp [WatchList.update, h]

theorem update_unregistered (wl : WatchList) (td : TickerData)
    (h : wl.list td.Symbol = none) :
    wl.update td = .panic wl .nilDereference := by
  simp [WatchList.update, h]

/-- With a threshold that is not negative, `update` returns no alert, whatever
the last and the new price are. -/
theorem update_no_alert (wl : WatchList) (td : TickerData) (w : Watch)
    (h : wl.list td.Symbol = some w) (hθ : 0 ≤ w.Threshold) :
    (wl.update td).ret? = some none := by
  have h0 : ¬ ((0 : ℚ) > (w.Threshold : ℚ)) := by
    have : (0 : ℚ) ≤ (w.Threshold : ℚ) := by exact_mod_cast hθ
    linarith
  rw [update_registered wl td w h, if_neg h0]
  rfl

/-- The method `Watch` never panics, and stores `watchEntry` under `td.Symbol`. -/
theorem Watch_registry (wl : WatchList) (channel : String) (threshold : Int)
    (td : TickerData) :
    ∃ msg, wl.Watch channel threshold (some td) =
      .done ⟨Function.update wl.list td.Symbol (some (watchEntry channel threshold td))⟩ msg := by
  have h := update_registered
    ⟨Function.update wl.list td.Symbol
      (some { Channel := channel, Name := td.Name, LastPrice := 0, Threshold := threshold })⟩
    td { Channel := channel, Name := td.Name, LastPrice := 0, Threshold := threshold }
    (by simp)
  simp only [WatchList.Watch, h, Function.update_idem, watchEntry]
  split <;> exact ⟨_, rfl⟩

/-- Effect of one call on the registry. -/
theorem runOps_cons (wl : WatchList) (op : RegOp) (ops : List RegOp) :
    runOps wl (op :: ops) =
      runOps ⟨Function.update wl.list op.symbol op.entry⟩ ops := by
  cases op with
  | watch channel threshold td =>
    obtain ⟨msg, h⟩ := Watch_registry wl channel threshold td
    simp [runOps, h, RegOp.symbol, RegOp.entry]
  | unwatch symbol => simp [runOps, WatchList.UnWatch, RegOp.symbol, RegOp.entry]

/-- A run of calls about `s` ending in `op` does not panic; it leaves the entry
of `op` under `s` and every other entry as it was. -/
theorem runOps_last (s : String) (ops : List RegOp) (op : RegOp) :
    ∀ wl : WatchList, (∀ o ∈ ops ++ [op], o.symbol = s) →
      ∃ wl1, runOps wl (ops ++ [op]) = .done wl1 () ∧ wl1.list s = op.entry ∧
        ∀ t, t ≠ s → wl1.list t = wl.list t := by
  induction ops with
  | nil =>
    intro wl h
    have hs : op.symbol = s := h op (by simp)
    subst hs
    refine ⟨⟨Function.update wl.list op.symbol op.entry⟩, ?_, ?_, ?_⟩
    · simp [runOps_cons, runOps]
    · exact Function.update_same _ _ _
    · intro t ht
      exact Function.update_noteq ht _ _
  | cons o ops ih =>
    intro wl h
    have hs : o.symbol = s := h o (by simp)
    subst hs
    obtain ⟨wl1, h1, h2, h3⟩ :=
      ih ⟨Function.update wl.list o.symbol o.entry⟩ (fun x hx => h x (by simp [hx]))
    refine ⟨wl1, ?_, h2, ?_⟩
    · simpa [runOps_cons] using h1
    · intro t ht
      rw [h3 t ht]
      exact Function.update_noteq ht _ _

/-! ## C1, C2, C7, C8: the registry -/

/-- C1 (the code departs from the claim): in the scenario of the claim, `BTC`
is registered with threshold 100 at price 50000 and the next snapshot has price
50150, so the change of 150 exceeds the threshold; `Update` returns no alert,
since `update` subtracts the new price from itself. -/
theorem Update_scenario_returns_no_alert :
    btcRegistry.list "BTC" =
        some { Channel := "C0", Name := "Bitcoin", LastPrice := 50000, Threshold := 100 } ∧
      |(ticker "Bitcoin" "BTC" 50150 0).PriceUSD - 50000| > ((100 : Int) : ℚ) ∧
      (btcRegistry.Update (some (ticker "Bitcoin" "BTC" 50150 0))).ret? = some none := by
  have hreg : btcRegistry.list "BTC" =
      some { Channel := "C0", Name := "Bitcoin", LastPrice := 50000, Threshold := 100 } := by
    obtain ⟨msg, h⟩ := Watch_registry NewWatchList "C0" 100 (ticker "Bitcoin" "BTC" 50000 0)
    rw [btcRegistry, h]
    simp [Exec.registry, watchEntry, ticker]
  refine ⟨hreg, ?_, ?_⟩
  · norm_num [ticker]
  · exact update_no_alert btcRegistry (ticker "Bitcoin" "BTC" 50150 0) _ hreg (by decide)

/-- C2 (the code departs from the claim): `Update` with a snapshot whose symbol
has no entry, here on the new registry, panics with a nil dereference. -/
theorem Update_unregistered_panics :
    NewWatchList.list (ticker "Bitcoin" "BTC" 50000 0).Symbol = none ∧
      (NewWatchList.Update (some (ticker "Bitcoin" "BTC" 50000 0))).fault? =
        some Fault.nilDereference ∧
      (NewWatchList.Update (some (ticker "Bitcoin" "BTC" 50000 0))).ret? = none := by
  have h := update_unregistered NewWatchList (ticker "Bitcoin" "BTC" 50000 0) rfl
  refine ⟨rfl, ?_, ?_⟩ <;> simp only [WatchList.Update] <;> rw [h] <;> rfl

/-- C7: after a non-empty sequence of `Watch` calls (non-nil snapshot with
symbol `s`) and `UnWatch(s)` calls, run from any registry, the run has not
panicked, the entry of `s` is the one the last call alone determines (absent
after `UnWatch`, `{channel, td.Name, td.PriceUSD, threshold}` after `Watch`),
and the entries of all other symbols are unchanged; and `UnWatch` of a symbol
without entry leaves the registry unchanged. -/
theorem register_deregister_last_wins (wl : WatchList) (s : String) (ops : List RegOp)
    (op : RegOp) (h : ∀ o ∈ ops ++ [op], o.symbol = s) :
    (∃ wl1, runOps wl (ops ++ [op]) = .done wl1 () ∧
      wl1.list s =
        (match op with
          | .watch channel threshold td =>
            some { Channel := channel, Name := td.Name, LastPrice := td.PriceUSD
                   Threshold := threshold }
          | .unwatch _ => none) ∧
      ∀ t, t ≠ s → wl1.list t = wl.list t) ∧
    ∀ (wl0 : WatchList) (u : String), wl0.list u = none → wl0.UnWatch u = wl0 := by
  constructor
  · obtain ⟨wl1, h1, h2, h3⟩ := runOps_last s ops op wl h
    refine ⟨wl1, h1, ?_, h3⟩
    rw [h2]
    cases op <;> rfl
  · intro wl0 u hu
    cases wl0 with
    | mk list =>
      simp only [WatchList.UnWatch, WatchList.mk.injEq]
      funext t
      by_cases ht : t = u
      · subst ht
        simpa using hu.symm
      · simp [Function.update_noteq ht]

/-- C8: when the snapshot's symbol is registered with the Watch `w`, `Update`
returns (it does not panic) and afterwards that symbol's Watch is `w` with
`LastPrice` set to the snapshot's price, whether or not an alert is returned:
`Channel`, `Name` and `Threshold` are those of `w`; a symbol is registered
afterwards exactly when it was before; every other symbol's Watch is unchanged. -/
theorem Update_frame (wl : WatchList) (td : TickerData) (w : Watch)
    (h : wl.list td.Symbol = some w) :
    ∃ wl1 msg, wl.Update (some td) = .done wl1 msg ∧
      wl1.list td.Symbol =
        some { Channel := w.Channel, Name := w.Name, LastPrice := td.PriceUSD
               Threshold := w.Threshold } ∧
      (∀ s, wl1.list s = none ↔ wl.list s = none) ∧
      ∀ s, s ≠ td.Symbol → wl1.list s = wl.list s := by
  have hu := update_registered wl td w h
  have key : ∀ msg, wl.Update (some td) =
      .done ⟨Function.update wl.list td.Symbol (some { w with LastPrice := td.PriceUSD })⟩ msg →
      ∃ wl1 msg, wl.Update (some td) = .done wl1 msg ∧
        wl1.list td.Symbol =
          some { Channel := w.Channel, Name := w.Name, LastPrice := td.PriceUSD
                 Threshold := w.Threshold } ∧
        (∀ s, wl1.list s = none ↔ wl.list s = none) ∧
        ∀ s, s ≠ td.Symbol → wl1.list s = wl.list s := by
    intro msg hm
    refine ⟨_, msg, hm, by simp, ?_, ?_⟩
    · intro s
      by_cases hs : s = td.Symbol
      · subst hs
        simp [h]
      · simp [Function.update_noteq hs]
    · intro s hs
      simp [Function.update_noteq hs]
  by_cases hθ : (0 : ℚ) > (w.Threshold : ℚ)
  · rw [if_pos hθ] at hu
    exact key _ (by simpa [WatchList.Update] using hu)
  · rw [if_neg hθ] at hu
    exact key _ (by simpa [WatchList.Update] using hu)

/-! ## C3: the poll cycle -/

/-- A fetch error ends the loop at once: the symbols after it are not checked. -/
theorem pollSymbols_fetch_error (env : Env) (symbol : String) (rest : List String)
    (st : CycleState) (e : String) (h : env.FetchCoins symbol = .error e) :
    pollSymbols env (symbol :: rest) st = (st, .returned) := by
  simp [pollSymbols, h]

/-- C3 (the code departs from the claim): `AAA` and `BBB` are watched, the feed
fails for `AAA` and returns data for `BBB`, and the cycle ranges over `AAA`
first, which is one of the orders `range` can take.  The cycle leaves through `return` at `AAA`: `Update` is never called,
so `BBB` is not evaluated in this cycle. -/
theorem pollCycle_fetch_error_stops_cycle :
    twoRegistry.IsRange ["AAA", "BBB"] ∧
      twoRegistry.list "BBB" ≠ none ∧
      (∃ td, failingEnv.FetchCoins "BBB" = .ok ⟨[td], []⟩) ∧
      (pollCycle failingEnv ["AAA", "BBB"] ["AAA", "BBB"] twoRegistry).1.updates = [] ∧
      (pollCycle failingEnv ["AAA", "BBB"] ["AAA", "BBB"] twoRegistry).2 = .returned := by
  refine ⟨⟨by decide, ?_⟩, by simp [twoRegistry], ⟨_, rfl⟩, ?_, ?_⟩
  · intro s
    by_cases ha : s = "AAA"
    · simp [twoRegistry, ha]
    · by_cases hb : s = "BBB"
      · simp [twoRegistry, hb]
      · simp [twoRegistry, ha, hb]
  all_goals
    simp [pollCycle, WatchList.Foreach, twoRegistry, pollSymbols, failingEnv, Function.update]

/-! ## C4, C9: the `watch` command -/

/-- The search loop started with `td = nil` finds nothing in an empty listing
and panics on the first element of any other. -/
theorem findTicker_nil (env : Env) (symbol : String) (l : List TickerData) :
    findTicker env symbol l none =
      (match l with
        | [] => .ok none
        | _ :: _ => .error .nilDereference) := by
  cases l <;> rfl

/-- The `watch` command never changes the registry. -/
theorem msgWatch_registry (env : Env) (wl : WatchList) (m : Message) (parts : List String) :
    (msgWatch env wl m parts).wl = wl := by
  unfold msgWatch
  split
  · split
    · split
      · simp only [findTicker_nil]
        split
        · rename_i tdl _
          cases tdl.elems <;> simp [recv]
        · rfl
      · rfl
    · rfl
  · rfl

/-- A handled message leaves the registry as it was, or removes one entry. -/
theorem msgF_registry (env : Env) (id : String) (order : List String) (wl : WatchList)
    (m : Message) :
    (msgF env id order wl m).wl = wl ∨ ∃ p, (msgF env id order wl m).wl = wl.UnWatch p := by
  unfold msgF
  dsimp only
  repeat' split
  all_goals first
    | exact Or.inl rfl
    | exact Or.inl (msgWatch_registry _ _ _ _)
    | exact Or.inr ⟨_, rfl⟩

/-- Every Watch in the registry after a message was handled was there before. -/
theorem msgF_no_new_watch (env : Env) (id : String) (order : List String) (wl : WatchList)
    (m : Message) (s : String) (w : Watch)
    (h : (msgF env id order wl m).wl.list s = some w) : wl.list s = some w := by
  rcases msgF_registry env id order wl m with h1 | ⟨p, h1⟩
  · rwa [h1] at h
  · rw [h1] at h
    simp only [WatchList.UnWatch] at h
    by_cases hs : s = p
    · subst hs
      simp at h
    · rwa [Function.update_noteq hs] at h

/-- A message addressed to the bot whose second field is `watch` is handled by
`msgWatch`. -/
theorem msgF_watch (env : Env) (id : String) (order : List String) (wl : WatchList)
    (m : Message) (p0 : String) (args : List String)
    (hty : m.Type_ = "message") (hpre : HasPrefix m.Text ("<@" ++ id ++ ">") = true)
    (hparts : Fields m.Text = p0 :: "watch" :: args) :
    msgF env id order wl m = msgWatch env wl m (p0 :: "watch" :: args) := by
  simp [msgF, hty, hpre, hparts]

/-- With a valid threshold and a listing that is not empty, the `watch` command
panics in its search loop and is recovered: the help text is posted and the
registry is not touched. -/
theorem msgWatch_panics (env : Env) (wl : WatchList) (m : Message) (p0 p1 p2 p3 : String)
    (t : Int) (coins : Slice TickerData) (hA : Atoi p3 = some t) (ht : 0 < t)
    (hf : env.FetchCoins "" = .ok coins) (hne : coins.elems ≠ []) :
    msgWatch env wl m [p0, p1, p2, p3] = recv m wl .nilDereference := by
  cases hc : coins.elems with
  | nil => exact absurd hc hne
  | cons c cs => simp [msgWatch, hA, ht, hf, hc, findTicker]

/-- C4 (the code departs from the claim): the message `watch btc 100` is
addressed to the bot, 100 parses to a positive integer and the listing holds
`BTC`, whose lowercased symbol is `btc`.  The search loop reads `td.Symbol`
while `td` is nil: the handler panics, `recv` posts the help text, and the
registry holds no Watch for `BTC`. -/
theorem msgF_watch_registers_nothing :
    Fields (chat "<@U1> watch btc 100").Text = ["<@U1>", "watch", "btc", "100"] ∧
      Atoi "100" = some 100 ∧
      lowerASCII (ticker "Bitcoin" "BTC" 50000 0).Symbol = lowerASCII "btc" ∧
      msgF (constEnv [ticker "Bitcoin" "BTC" 50000 0]) "U1" [] NewWatchList
          (chat "<@U1> watch btc 100") =
        { wl := NewWatchList
          posted := [helpF (chat "<@U1> watch btc 100")]
          ending := .recovered .nilDereference } ∧
      NewWatchList.list "BTC" = none := by
  refine ⟨by decide, by decide, by decide, ?_, rfl⟩
  rw [msgF_watch _ "U1" [] _ (chat "<@U1> watch btc 100") "<@U1>" ["btc", "100"] rfl
    (by decide) (by decide)]
  exact msgWatch_panics _ _ _ _ _ _ _ 100 ⟨[ticker "Bitcoin" "BTC" 50000 0], []⟩
    (by decide) (by decide) rfl (by simp)

/-- C9: a message addressed to the bot of the form `watch <symbol> <threshold>`
whose threshold is not a decimal integer, or is an integer that is not
positive, leaves the registry unchanged for every feed (the handler replies
that it cannot parse the threshold); and a Watch that is in the registry after
any message was handled, and was not there before, has a positive threshold. -/
theorem msgF_watch_bad_threshold (env : Env) (id : String) (order : List String)
    (wl : WatchList) (m : Message) (p0 symbol threshold : String)
    (hty : m.Type_ = "message") (hpre : HasPrefix m.Text ("<@" ++ id ++ ">") = true)
    (hparts : Fields m.Text = [p0, "watch", symbol, threshold])
    (hbad : Atoi threshold = none ∨ ∃ t, Atoi threshold = some t ∧ t ≤ 0) :
    (msgF env id order wl m).wl = wl ∧
      (msgF env id order wl m).posted =
        [{ m with Text := "Cannot parse threshold " ++ threshold }] ∧
      (msgF env id order wl m).ending = .normal ∧
      ∀ (m2 : Message) (s : String) (w : Watch),
        (msgF env id order wl m2).wl.list s = some w → wl.list s ≠ some w →
          0 < w.Threshold := by
  have hm : msgF env id order wl m = msgWatch env wl m [p0, "watch", symbol, threshold] :=
    msgF_watch env id order wl m p0 [symbol, threshold] hty hpre hparts
  have hw : msgWatch env wl m [p0, "watch", symbol, threshold] =
      { wl := wl
        posted := [{ m with Text := "Cannot parse threshold " ++ threshold }]
        ending := .normal } := by
    rcases hbad with h | ⟨t, h, ht⟩
    · simp [msgWatch, h]
    · simp [msgWatch, h, not_lt.mpr ht]
  rw [hm, hw]
  refine ⟨rfl, rfl, rfl, ?_⟩
  intro m2 s w h1 h2
  exact absurd (msgF_no_new_watch env id order wl m2 s w h1) h2

/-! ## C5: `getQuote` -/

/-- The map `set` of `getQuote` holds exactly the lowercased requested symbols. -/
theorem quoteSet_spec (f : String → String) (sym : List String) (k : String) :
    ∀ init : String → Bool,
      (sym.foldl (fun set v => Function.update set (f v) true) init) k =
        (init k || decide (k ∈ sym.map f)) := by
  induction sym with
  | nil => intro init; simp
  | cons v vs ih =>
    intro init
    rw [List.foldl_cons, ih]
    by_cases hk : k = f v
    · subst hk
      simp
    · simp [Function.update_noteq hk, hk]

/-- The loop of `getQuote` over the coins appends the lines of the coins that
pass the test `p`, and raises `found` when there is one. -/
theorem quoteLoop_spec (p : TickerData → Bool) (coins : List TickerData) :
    ∀ rf : String × Bool,
      coins.foldl (fun rf coin => if p coin then (rf.1 ++ quoteLine coin, true) else rf) rf =
        ((coins.filter p).foldl (fun resp coin => resp ++ quoteLine coin) rf.1,
          rf.2 || coins.any p) := by
  induction coins with
  | nil => intro rf; simp
  | cons c cs ih =>
    intro rf
    rw [List.foldl_cons, ih]
    by_cases hc : p c = true
    · simp [hc]
    · simp [hc]

/-- Appending lines keeps what was written before. -/
theorem quoteFold_keeps (l : List TickerData) :
    ∀ init : String,
      ∃ t, (l.foldl (fun resp coin => resp ++ quoteLine coin) init).data = init.data ++ t := by
  induction l with
  | nil => intro init; exact ⟨[], by simp⟩
  | cons d ds ih =>
    intro init
    obtain ⟨t, ht⟩ := ih (init ++ quoteLine d)
    exact ⟨(quoteLine d).data ++ t, by rw [List.foldl_cons, ht]; simp⟩

/-- The line of every coin of `l` is part of the text written for `l`. -/
theorem quoteFold_infix (l : List TickerData) (c : TickerData) (hc : c ∈ l) :
    ∀ init : String,
      (quoteLine c).data <:+: (l.foldl (fun resp coin => resp ++ quoteLine coin) init).data := by
  induction l with
  | nil => simp at hc
  | cons d ds ih =>
    intro init
    rw [List.foldl_cons]
    rcases List.mem_cons.mp hc with h | h
    · subst h
      obtain ⟨t, ht⟩ := quoteFold_keeps ds (init ++ quoteLine c)
      exact ⟨init.data, t, by rw [ht]; simp⟩
    · exact ih h _

/-- The reply of `getQuote` for a listing that is not empty. -/
theorem getQuote_eq (env : Env) (sym : List String) (coins : Slice TickerData)
    (hf : env.FetchCoins "" = .ok coins) (hne : coins.elems ≠ []) :
    getQuote env sym =
      if (coins.elems.any (requested env sym)) = true then
        quoteLines (coins.elems.filter (requested env sym))
      else "'" ++ fmtV1 sym ++ "' not found" := by
  have hlen : 0 < coins.elems.length := List.length_pos.mpr hne
  have hset : (fun coin : TickerData =>
      (sym.foldl (fun set v => Function.update set (env.ToLower v) true) (fun _ => false))
        (env.ToLower coin.Symbol)) = requested env sym := by
    funext coin
    rw [quoteSet_spec]
    simp [requested]
  have hloop := quoteLoop_spec (requested env sym) coins.elems ("", false)
  simp only [getQuote, hf, hlen, if_true]
  rw [← hset] at hloop ⊢
  simp only [hloop, quoteLines, Bool.false_or]

/-- C5 (the claim as stated fails): the listing holds only `BTC` and the
request is `coin btc xyz`, so `btc` matches a coin and `xyz` matches none.  The
reply is the quote line of `BTC` and nothing else: it contains neither the
words "not found" nor the symbol `xyz`. -/
theorem getQuote_partial_match_is_silent :
    requested (constEnv [ticker "Bitcoin" "BTC" 50000 0]) ["btc", "xyz"]
        (ticker "Bitcoin" "BTC" 50000 0) = true ∧
      (∀ coin ∈ [ticker "Bitcoin" "BTC" 50000 0],
        lowerASCII coin.Symbol ≠ lowerASCII "xyz") ∧
      getQuote (constEnv [ticker "Bitcoin" "BTC" 50000 0]) ["btc", "xyz"] =
        "BTC $50000.00, update 1H: 0.00%, update 24H: 0.00%\n" ∧
      ¬ ("not found".data <:+:
        (getQuote (constEnv [ticker "Bitcoin" "BTC" 50000 0]) ["btc", "xyz"]).data) ∧
      ¬ ("xyz".data <:+:
        (getQuote (constEnv [ticker "Bitcoin" "BTC" 50000 0]) ["btc", "xyz"]).data) := by
  have h : getQuote (constEnv [ticker "Bitcoin" "BTC" 50000 0]) ["btc", "xyz"] =
      "BTC $50000.00, update 1H: 0.00%, update 24H: 0.00%\n" := by
    rw [getQuote_eq _ _ ⟨[ticker "Bitcoin" "BTC" 50000 0], []⟩ rfl (by simp)]
    decide
  refine ⟨by decide, by decide, h, ?_, ?_⟩ <;> rw [h] <;> decide

/-- C5 (amended): for a listing that is not empty, when at least one
requested symbol matches a coin of the listing up to case, the reply of
`getQuote` is exactly the quote lines of the matching coins, in the order of
the listing, so it contains the quote line of every matching coin, and the
requested symbols that match no coin are not reported; the not-found text,
which names the whole request, is the reply only when no requested symbol
matches. -/
theorem getQuote_reply (env : Env) (sym : List String) (coins : Slice TickerData)
    (hf : env.FetchCoins "" = .ok coins) (hne : coins.elems ≠ []) :
    ((∃ coin ∈ coins.elems, ∃ v ∈ sym, env.ToLower coin.Symbol = env.ToLower v) →
      getQuote env sym = quoteLines (coins.elems.filter (requested env sym)) ∧
      ∀ coin ∈ coins.elems, (∃ v ∈ sym, env.ToLower coin.Symbol = env.ToLower v) →
        (quoteLine coin).data <:+: (getQuote env sym).data) ∧
    ((¬ ∃ coin ∈ coins.elems, ∃ v ∈ sym, env.ToLower coin.Symbol = env.ToLower v) →
      getQuote env sym = "'" ++ fmtV1 sym ++ "' not found") := by
  have hreq : ∀ coin, requested env sym coin = true ↔
      ∃ v ∈ sym, env.ToLower coin.Symbol = env.ToLower v := by
    intro coin
    simp only [requested, decide_eq_true_eq, List.mem_map]
    constructor
    · rintro ⟨v, hv, h⟩
      exact ⟨v, hv, h.symm⟩
    · rintro ⟨v, hv, h⟩
      exact ⟨v, hv, h.symm⟩
  have hany : coins.elems.any (requested env sym) = true ↔
      ∃ coin ∈ coins.elems, ∃ v ∈ sym, env.ToLower coin.Symbol = env.ToLower v := by
    rw [List.any_eq_true]
    constructor
    · rintro ⟨coin, hc, h⟩
      exact ⟨coin, hc, (hreq coin).mp h⟩
    · rintro ⟨coin, hc, h⟩
      exact ⟨coin, hc, (hreq coin).mpr h⟩
  have heq := getQuote_eq env sym coins hf hne
  constructor
  · intro hm
    rw [if_pos (hany.mpr hm)] at heq
    refine ⟨heq, ?_⟩
    intro coin hc hv
    rw [heq]
    exact quoteFold_infix _ coin (List.mem_filter.mpr ⟨hc, (hreq coin).mpr hv⟩) ""
  · intro hm
    rw [if_neg (fun h => hm (hany.mp h))] at heq
    exact heq

/-! ## C6, C10: `rankCoins` -/

/-- The two elements at the indices that the inner loop compares. -/
theorem getElem?_adjacent (pre post : List TickerData) (y x : TickerData) :
    (pre ++ y :: x :: post)[pre.length]? = some y ∧
      (pre ++ y :: x :: post)[pre.length + 1]? = some x := by
  induction pre with
  | nil => simp
  | cons p ps ih => simpa using ih

/-- Writing two adjacent elements in exchanged order. -/
theorem set_adjacent (pre post : List TickerData) (y x : TickerData) :
    ((pre ++ y :: x :: post).set (pre.length + 1) y).set pre.length x =
      pre ++ x :: y :: post := by
  induction pre with
  | nil => simp
  | cons p ps ih => simp

/-- The method `Less` on two adjacent indices. -/
theorem Less_adjacent (pre post : List TickerData) (y x : TickerData) :
    Sortable.Less (pre ++ y :: x :: post) (pre.length + 1) pre.length =
      .ok (decide (x.MarketCapUSD > y.MarketCapUSD)) := by
  obtain ⟨h0, h1⟩ := getElem?_adjacent pre post y x
  simp only [Sortable.Less, h0, h1]

/-- The method `Swap` on two adjacent indices. -/
theorem Swap_adjacent (pre post : List TickerData) (y x : TickerData) :
    Sortable.Swap (pre ++ y :: x :: post) (pre.length + 1) pre.length =
      .ok (pre ++ x :: y :: post) := by
  obtain ⟨h0, h1⟩ := getElem?_adjacent pre post y x
  simp only [Sortable.Swap, h0, h1, set_adjacent]

/-- The inner loop moves the element at `pre.length` to the left past the
elements of smaller capitalisation. -/
theorem insertionInner_spec (x : TickerData) (pre : List TickerData) :
    ∀ post : List TickerData, ∃ A B : List TickerData,
      pre = A ++ B ∧
      insertionInner (pre ++ x :: post) pre.length = .ok (A ++ x :: B ++ post) ∧
      (∀ b ∈ B, b.MarketCapUSD < x.MarketCapUSD) ∧
      (pre.Pairwise (fun a b => b.MarketCapUSD ≤ a.MarketCapUSD) →
        ∀ a ∈ A, x.MarketCapUSD ≤ a.MarketCapUSD) := by
  induction pre using List.reverseRecOn with
  | nil =>
    intro post
    exact ⟨[], [], rfl, rfl, by simp, by simp⟩
  | append_singleton pre y ih =>
    intro post
    have hlen : (pre ++ [y]).length = pre.length + 1 := by simp
    have hs : pre ++ [y] ++ x :: post = pre ++ y :: x :: post := by simp
    rw [hlen, hs]
    by_cases hxy : x.MarketCapUSD > y.MarketCapUSD
    · obtain ⟨A, B, hAB, hrun, hB, hA⟩ := ih (y :: post)
      refine ⟨A, B ++ [y], by rw [hAB]; simp, ?_, ?_, ?_⟩
      · simp only [insertionInner, Less_adjacent, Swap_adjacent, hxy, decide_True]
        rw [hrun]
        simp
      · intro b hb
        rcases List.mem_append.mp hb with h | h
        · exact hB b h
        · rw [List.mem_singleton.mp h]
          exact hxy
      · intro hp a ha
        exact hA (List.pairwise_append.mp hp).1 a ha
    · refine ⟨pre ++ [y], [], by simp, ?_, by simp, ?_⟩
      · simp [insertionInner, Less_adjacent, hxy]
      · intro hp a ha
        have hyx : x.MarketCapUSD ≤ y.MarketCapUSD := not_lt.mp hxy
        rcases List.mem_append.mp ha with h | h
        · have := (List.pairwise_append.mp hp).2.2 a h y (by simp)
          exact le_trans hyx this
        · rw [List.mem_singleton.mp h]
          exact hyx

/-- The outer loop, started on a sorted front part `front`, returns a sorted
rearrangement of the whole data. -/
theorem insertionOuter_spec (todo : List TickerData) :
    ∀ front : List TickerData,
      front.Pairwise (fun a b => b.MarketCapUSD ≤ a.MarketCapUSD) →
      ∃ L : List TickerData,
        insertionOuter (front ++ todo) front.length todo.length = .ok L ∧
        L.Perm (front ++ todo) ∧
        L.Pairwise (fun a b => b.MarketCapUSD ≤ a.MarketCapUSD) := by
  induction todo with
  | nil =>
    intro front hfront
    exact ⟨front, by simp [insertionOuter], by simp, hfront⟩
  | cons x todo ih =>
    intro front hfront
    obtain ⟨A, B, hAB, hrun, hB, hA⟩ := insertionInner_spec x front todo
    subst hAB
    have hAx := hA hfront
    obtain ⟨hAs, hBs, hABs⟩ := List.pairwise_append.mp hfront
    have hfront1 : (A ++ x :: B).Pairwise (fun a b => b.MarketCapUSD ≤ a.MarketCapUSD) := by
      refine List.pairwise_append.mpr ⟨hAs, List.pairwise_cons.mpr ⟨?_, hBs⟩, ?_⟩
      · exact fun b hb => le_of_lt (hB b hb)
      · intro a ha c hc
        rcases List.mem_cons.mp hc with h | h
        · rw [h]
          exact hAx a ha
        · exact hABs a ha c h
    obtain ⟨L, hL, hperm, hsorted⟩ := ih (A ++ x :: B) hfront1
    refine ⟨L, ?_, ?_, hsorted⟩
    · have hlen : (A ++ x :: B).length = (A ++ B).length + 1 := by simp; omega
      have hshape : A ++ x :: B ++ todo = (A ++ x :: B) ++ todo := by simp
      simp only [List.length_cons, insertionOuter, hrun, hshape]
      rw [← hlen]
      exact hL
    · refine hperm.trans ?_
      have h1 : (A ++ x :: B).Perm (x :: (A ++ B)) := List.perm_middle
      have h2 : (A ++ B ++ x :: todo).Perm (x :: (A ++ B ++ todo)) := List.perm_middle
      exact (h1.append_right todo).trans h2.symm

/-- The model of `sort.Sort` returns a rearrangement of the data in order of
non-increasing `MarketCapUSD`. -/
theorem sortSort_spec (s : List TickerData) :
    ∃ L : List TickerData, sortSort s = .ok L ∧ L.Perm s ∧
      L.Pairwise (fun a b => b.MarketCapUSD ≤ a.MarketCapUSD) := by
  cases s with
  | nil => exact ⟨[], rfl, List.Perm.refl _, List.Pairwise.nil⟩
  | cons x t =>
    obtain ⟨L, hL, hperm, hsorted⟩ := insertionOuter_spec t [x] (List.pairwise_singleton _ _)
    exact ⟨L, by simpa [sortSort, Sortable.Len] using hL, by simpa using hperm, hsorted⟩

/-- The local `min` of `rankCoins` is the minimum. -/
theorem minInt_eq_min (l r : Int) : minInt l r = min l r := by
  unfold minInt
  split <;> omega

/-- The reply built by the loop of `rankCoins` is its lines, one per coin. -/
theorem rankLines_eq (vs : List TickerData) :
    rankLines vs =
      String.join (vs.map (fun v =>
        padLeft 1 v.Name ++ " : " ++ padLeft 2 v.Symbol ++ " => price: $" ++
          fmtF2 false v.PriceUSD ++ " : market: $" ++ fmtF2 false v.MarketCapUSD ++ "\n")) := by
  simp only [rankLines, String.join, List.foldl_map]
  rfl

/-- A negative limit makes `rankCoins` panic on every listing that is not
empty. -/
theorem rankCoins_negative (env : Env) (limit : Int) (coins : Slice TickerData)
    (hf : env.FetchCoins "" = .ok coins) (hne : coins.elems ≠ []) (hneg : limit < 0) :
    rankCoins env limit = .error .sliceBounds := by
  have hlen : 0 < coins.elems.length := List.length_pos.mpr hne
  obtain ⟨L, hL, _, _⟩ := sortSort_spec coins.elems
  have hk : minInt limit 30 < 0 := by
    rw [minInt_eq_min]
    omega
  simp [rankCoins, hf, hlen, hL, Slice.sliceTo, hk]

/-- A limit above the capacity of the listing, and at most 30, makes
`rankCoins` panic. -/
theorem rankCoins_beyond_cap (env : Env) (limit : Int)
    (coins : Slice TickerData) (hf : env.FetchCoins "" = .ok coins) (hne : coins.elems ≠ [])
    (hcap : (coins.cap : Int) < limit) (h30 : limit ≤ 30) :
    rankCoins env limit = .error .sliceBounds := by
  have hlen : 0 < coins.elems.length := List.length_pos.mpr hne
  obtain ⟨L, hL, hperm, _⟩ := sortSort_spec coins.elems
  have hl : L.length = coins.elems.length := hperm.length_eq
  have hk2 : (L.length : Int) + (coins.spare.length : Int) < minInt limit 30 := by
    rw [minInt_eq_min, hl]
    simp only [Slice.cap, Nat.cast_add] at hcap
    omega
  simp [rankCoins, hf, hlen, hL, Slice.sliceTo, Slice.cap, hk2]

/-- C6: for a limit `n ≥ 0` and a listing with at least `min(n, 30)` coins,
`rankCoins(n)` returns (it does not panic) and its reply is the lines, each
with name, symbol, price and market capitalisation, of exactly `min(n, 30)`
entries (so never more than 30; for the empty listing, which needs `n = 0`,
the reply is "n/a" and holds no entry); the entries are in order of
non-increasing `MarketCapUSD`; and they are the top ones: the entries together
with the coins left out are the listing, and every coin left out has a
`MarketCapUSD` at most that of every entry. -/
theorem rankCoins_top (env : Env) (n : Int) (coins : Slice TickerData) (hn : 0 ≤ n)
    (hf : env.FetchCoins "" = .ok coins)
    (hlen : min n 30 ≤ (coins.elems.length : Int)) :
    ∃ entries rest : List TickerData,
      rankCoins env n =
        .ok (if coins.elems = [] then "n/a"
          else String.join (entries.map (fun v =>
            padLeft 1 v.Name ++ " : " ++ padLeft 2 v.Symbol ++ " => price: $" ++
              fmtF2 false v.PriceUSD ++ " : market: $" ++ fmtF2 false v.MarketCapUSD ++
              "\n"))) ∧
      (entries.length : Int) = min n 30 ∧
      entries.length ≤ 30 ∧
      entries.Pairwise (fun a b => b.MarketCapUSD ≤ a.MarketCapUSD) ∧
      (entries ++ rest).Perm coins.elems ∧
      ∀ e ∈ entries, ∀ r ∈ rest, r.MarketCapUSD ≤ e.MarketCapUSD := by
  obtain ⟨L, hL, hperm, hpw⟩ := sortSort_spec coins.elems
  have hl : L.length = coins.elems.length := hperm.length_eq
  have hk : (min n 30).toNat ≤ L.length := by
    rw [hl]
    omega
  refine ⟨L.take (min n 30).toNat, L.drop (min n 30).toNat, ?_, ?_, ?_, ?_, ?_, ?_⟩
  · by_cases hne : coins.elems = []
    · simp [rankCoins, hf, hne]
    · have hpos : 0 < coins.elems.length := List.length_pos.mpr hne
      have hc : ¬ (min n 30 < 0 ∨
          (L.length : Int) + (coins.spare.length : Int) < min n 30) := by
        rw [hl]
        omega
      simp only [rankCoins, hf, hpos, hL, if_true, Slice.sliceTo, Slice.cap, Nat.cast_add,
        minInt_eq_min, if_neg hc, hne, if_false, List.take_append_of_le_length hk,
        rankLines_eq]
  · rw [List.length_take, Nat.min_eq_left hk]
    omega
  · rw [List.length_take, Nat.min_eq_left hk]
    omega
  · exact hpw.sublist (List.take_sublist _ _)
  · rw [List.take_append_drop]
    exact hperm
  · have h := hpw
    rw [← List.take_append_drop (min n 30).toNat L, List.pairwise_append] at h
    exact fun e he r hr => h.2.2 e he r hr

/-- The reply to `rank 1` on the listing `twoCoins`: the line of `A`, the coin
of the higher market capitalisation, which is second in the listing and has
the lower price; its symbol is padded to two runes. -/
theorem rankCoins_twoCoins :
    rankCoins (constEnv twoCoins) 1 =
      .ok "Alpha :  A => price: $1.00 : market: $100.00\n" := by
  rfl

/-- C10 (the code departs from the claim): the listing holds one coin and the
limit is -1, as the message `rank -1` gives it.  The slice `coins[:-1]` is out
of bounds: `rankCoins` panics, and since the goroutine of the `rank` command
has no `recover`, the panic ends the process and nothing is posted. -/
theorem rankCoins_negative_limit_panics :
    Atoi "-1" = some (-1) ∧
      rankCoins (constEnv [ticker "Bitcoin" "BTC" 50000 900]) (-1) = .error .sliceBounds ∧
      (msgF (constEnv [ticker "Bitcoin" "BTC" 50000 900]) "U1" [] NewWatchList
        (chat "<@U1> rank -1")).ending = .crashed .sliceBounds ∧
      (msgF (constEnv [ticker "Bitcoin" "BTC" 50000 900]) "U1" [] NewWatchList
        (chat "<@U1> rank -1")).posted = [] := by
  have hr : rankCoins (constEnv [ticker "Bitcoin" "BTC" 50000 900]) (-1) =
      .error .sliceBounds :=
    rankCoins_negative _ _ ⟨[ticker "Bitcoin" "BTC" 50000 900], []⟩ rfl (by simp) (by decide)
  have hA : Atoi "-1" = some (-1) := by decide
  have hF : Fields (chat "<@U1> rank -1").Text = ["<@U1>", "rank", "-1"] := by decide
  have hP : HasPrefix (chat "<@U1> rank -1").Text "<@U1>" = true := by decide
  have hT : (chat "<@U1> rank -1").Type_ = "message" := rfl
  refine ⟨hA, hr, ?_, ?_⟩ <;>
    simp [msgF, hT, hP, hF, hA, hr]

/-! ## Instances of the theorems at concrete inputs -/

/-- Instance of C5 (amended): listing `BTC`, request `coin btc xyz`. -/
theorem getQuote_reply_witness :
    btcEnv.FetchCoins "" = .ok ⟨[ticker "Bitcoin" "BTC" 50000 900], []⟩ ∧
      ((∃ coin ∈ [ticker "Bitcoin" "BTC" 50000 900], ∃ v ∈ ["btc", "xyz"],
          btcEnv.ToLower coin.Symbol = btcEnv.ToLower v) →
        getQuote btcEnv ["btc", "xyz"] =
            quoteLines ([ticker "Bitcoin" "BTC" 50000 900].filter
              (requested btcEnv ["btc", "xyz"])) ∧
          ∀ coin ∈ [ticker "Bitcoin" "BTC" 50000 900],
            (∃ v ∈ ["btc", "xyz"], btcEnv.ToLower coin.Symbol = btcEnv.ToLower v) →
              (quoteLine coin).data <:+: (getQuote btcEnv ["btc", "xyz"]).data) ∧
      ((¬ ∃ coin ∈ [ticker "Bitcoin" "BTC" 50000 900], ∃ v ∈ ["btc", "xyz"],
          btcEnv.ToLower coin.Symbol = btcEnv.ToLower v) →
        getQuote btcEnv ["btc", "xyz"] = "'" ++ fmtV1 ["btc", "xyz"] ++ "' not found") :=
  ⟨rfl,
    getQuote_reply btcEnv ["btc", "xyz"] ⟨[ticker "Bitcoin" "BTC" 50000 900], []⟩ rfl
      (by decide)⟩

/-- Instance of C6: limit 50 on a listing of 31 coins; and the reply to
`rank 1` on a listing of two coins, as text. -/
theorem rankCoins_top_witness :
    (0 : Int) ≤ 50 ∧ min (50 : Int) 30 ≤ ((listing 31).length : Int) ∧
      (∃ entries rest : List TickerData,
        rankCoins (constEnv (listing 31)) 50 =
          .ok (if listing 31 = [] then "n/a"
            else String.join (entries.map (fun v =>
              padLeft 1 v.Name ++ " : " ++ padLeft 2 v.Symbol ++ " => price: $" ++
                fmtF2 false v.PriceUSD ++ " : market: $" ++ fmtF2 false v.MarketCapUSD ++
                "\n"))) ∧
        (entries.length : Int) = min (50 : Int) 30 ∧
        entries.length ≤ 30 ∧
        entries.Pairwise (fun a b => b.MarketCapUSD ≤ a.MarketCapUSD) ∧
        (entries ++ rest).Perm (listing 31) ∧
        ∀ e ∈ entries, ∀ r ∈ rest, r.MarketCapUSD ≤ e.MarketCapUSD) ∧
      rankCoins (constEnv twoCoins) 1 =
        .ok "Alpha :  A => price: $1.00 : market: $100.00\n" :=
  ⟨by decide, by decide,
    rankCoins_top (constEnv (listing 31)) 50 ⟨listing 31, []⟩ (by decide) rfl (by decide),
    rankCoins_twoCoins⟩

/-- Instance of C7: `Watch(BTC)`, `UnWatch(BTC)`, `Watch(BTC)` on the new
registry. -/
theorem register_deregister_last_wins_witness :
    (∀ o ∈ btcOps ++ [btcLastOp], o.symbol = "BTC") ∧
      (∃ wl1, runOps NewWatchList (btcOps ++ [btcLastOp]) = .done wl1 () ∧
        wl1.list "BTC" =
          some { Channel := "C1", Name := "Bitcoin", LastPrice := 50150, Threshold := 7 } ∧
        ∀ t, t ≠ "BTC" → wl1.list t = NewWatchList.list t) ∧
      ∀ (wl0 : WatchList) (u : String), wl0.list u = none → wl0.UnWatch u = wl0 :=
  ⟨by simp [btcOps, btcLastOp, RegOp.symbol, ticker],
    register_deregister_last_wins NewWatchList "BTC" btcOps btcLastOp
      (by simp [btcOps, btcLastOp, RegOp.symbol, ticker])⟩

/-- Instance of C8: `AAA`, watched at price 10, is updated with price 12. -/
theorem Update_frame_witness :
    twoRegistry.list alphaAt12.Symbol =
        some { Channel := "C0", Name := "Alpha", LastPrice := 10, Threshold := 5 } ∧
      ∃ wl1 msg, twoRegistry.Update (some alphaAt12) = .done wl1 msg ∧
        wl1.list alphaAt12.Symbol =
          some { Channel := "C0", Name := "Alpha", LastPrice := alphaAt12.PriceUSD
                 Threshold := 5 } ∧
        (∀ s, wl1.list s = none ↔ twoRegistry.list s = none) ∧
        ∀ s, s ≠ alphaAt12.Symbol → wl1.list s = twoRegistry.list s :=
  ⟨rfl, Update_frame twoRegistry alphaAt12 _ rfl⟩

/-- Instance of C9: the message `watch btc -5`. -/
theorem msgF_watch_bad_threshold_witness :
    (chat "<@U1> watch btc -5").Type_ = "message" ∧
      HasPrefix (chat "<@U1> watch btc -5").Text ("<@" ++ "U1" ++ ">") = true ∧
      Fields (chat "<@U1> watch btc -5").Text = ["<@U1>", "watch", "btc", "-5"] ∧
      Atoi "-5" = some (-5) ∧
      (msgF btcEnv "U1" [] twoRegistry (chat "<@U1> watch btc -5")).wl = twoRegistry ∧
      (msgF btcEnv "U1" [] twoRegistry (chat "<@U1> watch btc -5")).posted =
        [{ chat "<@U1> watch btc -5" with Text := "Cannot parse threshold " ++ "-5" }] ∧
      (msgF btcEnv "U1" [] twoRegistry (chat "<@U1> watch btc -5")).ending = .normal ∧
      ∀ (m2 : Message) (s : String) (w : Watch),
        (msgF btcEnv "U1" [] twoRegistry m2).wl.list s = some w →
          twoRegistry.list s ≠ some w → 0 < w.Threshold :=
  ⟨rfl, by decide, by decide, by decide,
    msgF_watch_bad_threshold btcEnv "U1" [] twoRegistry (chat "<@U1> watch btc -5") "<@U1>"
      "btc" "-5" rfl (by decide) (by decide) (Or.inr ⟨-5, by decide, by decide⟩)⟩

end CoinBot
